import Mathlib

/-
Shallow embedding of the transcript-reconciliation scripts of this repository
(process_teams_transcript.py and process_zoom_transcript.py).

Modelling conventions:
- a Python `str` is a `List Char` (`PyStr`); character comparisons use code
  points, as CPython does for `str` ordering;
- Python whitespace handling (`str.split`, `str.strip`, the regex class `\s`)
  is modelled over the ASCII whitespace characters;
- filesystem effects (os.walk, open, write) are abstracted into an
  environment record; the walk yields a list of file names, reads yield an
  optional decoded tree (`none` models a JSON decode / read error), and write
  success is a boolean;
- `sys.exit(1)` is modelled as result code 1, normal return as 0.
-/

abbrev PyStr := List Char

abbrev Utt := PyStr × PyStr

/-- ASCII whitespace, as recognised by Python's `str.split()` / `str.strip()`
and by the regex class `\s` on ASCII input. -/
def isPyWS (c : Char) : Bool :=
  c == ' ' || c == '\t' || c == '\n' || c == '\r' || c == '\x0b' || c == '\x0c'

/-- Python `str.strip()`: drop whitespace from both ends. -/
def pyStrip (l : PyStr) : PyStr :=
  ((l.dropWhile isPyWS).reverse.dropWhile isPyWS).reverse

/-- Accumulator form of Python `str.split()` (split on whitespace runs,
dropping empty fragments). `acc` holds the current word reversed. -/
def wordsAux : PyStr → PyStr → List PyStr
  | [], acc => if acc = [] then [] else [acc.reverse]
  | c :: r, acc =>
    if isPyWS c then (if acc = [] then wordsAux r [] else acc.reverse :: wordsAux r [])
    else wordsAux r (c :: acc)

/-- Python `text.split()`. -/
def pyWords (l : PyStr) : List PyStr := wordsAux l []

/-- Python `' '.join(fragments)`. -/
def joinSp : List PyStr → PyStr
  | [] => []
  | [b] => b
  | b :: b2 :: r => b ++ ' ' :: joinSp (b2 :: r)

/-- Python `' '.join(text.split())`: collapse whitespace runs to single
spaces and trim both ends (process_teams_transcript.py line 118). -/
def normWS (l : PyStr) : PyStr := joinSp (pyWords l)

/-- Lexicographic comparison (non-strict) of lists of naturals; used both for
CPython code-point string comparison and for `datetime` comparison. -/
def lexLe : List Nat → List Nat → Bool
  | [], _ => true
  | _ :: _, [] => false
  | a :: as, b :: bs => if a = b then lexLe as bs else decide (a < b)

def charVals (l : PyStr) : List Nat := l.map Char.toNat

/-
The speaker-label regex `re.sub(r'\s*\(.*\)\s*$', '', speaker)` of
process_teams_transcript.py line 122.  The pattern (DOTALL and MULTILINE both
off) matches, from some position to the end of the string, whitespace, then
`(`, then any characters other than newline, then `)`, then whitespace.
`re.sub` removes the leftmost such match (it necessarily extends to the end,
so there is at most one).  A `$` just before a final newline is equivalent to
letting the trailing `\s*` absorb that newline, so end-of-string `$` is exact.
-/

/-- Does `r` decompose as `mid ++ ')' :: ws` with `mid` newline-free and `ws`
all whitespace?  (`r` is what follows the opening parenthesis.) -/
def tailParenOk : PyStr → Bool
  | [] => false
  | c :: rest => (c == ')' && rest.all isPyWS) || (c != '\n' && tailParenOk rest)

/-- Does the regex `\s*\(.*\)\s*$` match at the start of `t` (through to the
end of the string)? -/
def parenMatchAt (t : PyStr) : Bool :=
  match t.dropWhile isPyWS with
  | '(' :: r => tailParenOk r
  | _ => false

/-- `re.sub(r'\s*\(.*\)\s*$', '', s)`: cut the string at the leftmost
position where the parenthetical-suffix pattern matches. -/
def subParen : PyStr → PyStr
  | [] => []
  | c :: r => if parenMatchAt (c :: r) then [] else c :: subParen r

/-- Speaker-label cleaning of process_teams_transcript.py lines 122-123:
strip a trailing parenthetical, `strip()` the result, and fall back to
"Unknown Speaker" when nothing is left. -/
def cleanSpeaker (raw : PyStr) : PyStr :=
  let c := pyStrip (subParen raw)
  if c = [] then "Unknown Speaker".toList else c

/-
The snapshot tree.  A JSON value is a dict (with the keys the scripts read:
"role", "description", "value", "children"), a list, or anything else.  The
scripts treat a missing "children" key exactly like an empty children list,
so presence of the key is not modelled separately.
-/

inductive JTree where
  | dict (role description value : Option PyStr) (children : List JTree)
  | arr (items : List JTree)
  | leaf

def JTree.childrenOf : JTree → List JTree
  | JTree.dict _ _ _ cs => cs
  | JTree.arr its => its
  | JTree.leaf => []

mutual
/-- The helper `find_first_static_text` of process_teams_transcript.py
lines 90-102: first AXStaticText value in a depth-first pre-order search. -/
def findFirstStaticText : JTree → Option PyStr
  | JTree.dict r _ v cs =>
    if r = some ("AXStaticText".toList) ∧ v.isSome then v else findFirstStaticTextL cs
  | JTree.arr its => findFirstStaticTextL its
  | JTree.leaf => none
def findFirstStaticTextL : List JTree → Option PyStr
  | [] => none
  | t :: ts =>
    match findFirstStaticText t with
    | some s => some s
    | none => findFirstStaticTextL ts
end

/-- The structural match of `_extract_speaker_text_pairs` (lines 75-127): a
dict of role AXGroup with exactly two children, child 1 an AXGroup whose
single child is an AXStaticText bearing a value, child 2 an AXStaticText
bearing a value.  Returns `some parts` exactly when the code takes its early
`return parts` (so the caller must not recurse), `none` otherwise. -/
def matchedPair (role : Option PyStr) (cs : List JTree) : Option (List Utt) :=
  match role, cs with
  | some r, [c1, c2] =>
    if r = "AXGroup".toList then
      match c1, c2 with
      | JTree.dict r1 _ _ [JTree.dict rg dg (some vg) csg], JTree.dict r2 _ (some v2) _ =>
        if r1 = some ("AXGroup".toList) ∧ rg = some ("AXStaticText".toList) ∧
            r2 = some ("AXStaticText".toList) then
          let speaker := (findFirstStaticText (JTree.dict rg dg (some vg) csg)).getD vg
          let text := normWS v2
          if text = [] then some [] else some [(cleanSpeaker speaker, text)]
        else none
      | _, _ => none
    else none
  | _, _ => none

mutual
/-- `_extract_speaker_text_pairs` of process_teams_transcript.py
lines 58-139. -/
def extractPairs : JTree → List Utt
  | JTree.dict r _ _ cs =>
    match matchedPair r cs with
    | some ps => ps
    | none => extractPairsL cs
  | JTree.arr its => extractPairsL its
  | JTree.leaf => []
def extractPairsL : List JTree → List Utt
  | [] => []
  | t :: ts => extractPairs t ++ extractPairsL ts
end

mutual
/-- `find_live_captions_group` of process_teams_transcript.py lines 22-55:
first node (depth-first pre-order) of role AXGroup and description
"Live Captions". -/
def findLiveCaptionsGroup : JTree → Option JTree
  | JTree.dict r d v cs =>
    if r = some ("AXGroup".toList) ∧ d = some ("Live Captions".toList) then
      some (JTree.dict r d v cs)
    else findLiveCaptionsGroupL cs
  | JTree.arr its => findLiveCaptionsGroupL its
  | JTree.leaf => none
def findLiveCaptionsGroupL : List JTree → Option JTree
  | [] => none
  | t :: ts =>
    match findLiveCaptionsGroup t with
    | some g => some g
    | none => findLiveCaptionsGroupL ts
end

/-- `find_transcript_parts_teams_robust` (lines 142-163). -/
def findTranscriptPartsTeamsRobust (root : JTree) : List Utt :=
  match findLiveCaptionsGroup root with
  | some g => extractPairsL g.childrenOf
  | none => []

/-
Overlap detection.  `difflib.SequenceMatcher(None, a, b,
autojunk=False).find_longest_match(0, len(a), 0, len(b))` returns the longest
block `a[i:i+k] == b[j:j+k]`, breaking ties by smallest `i`, then smallest
`j`; with no junk the post-search extension loops are no-ops.  `bestMatch`
reproduces this: it scans all start pairs `(i, j)` in lexicographic order and
replaces the incumbent only on strictly larger run length.
-/

/-- Length of the longest common prefix run of two lists. -/
def runLen {α : Type} [DecidableEq α] : List α → List α → Nat
  | a :: as, b :: bs => if a = b then runLen as bs + 1 else 0
  | _, _ => 0

def stepJ {α : Type} [DecidableEq α] (xs ys : List α) (i : Nat)
    (b : Nat × Nat × Nat) (j : Nat) : Nat × Nat × Nat :=
  if b.2.2 < runLen (xs.drop i) (ys.drop j) then (i, j, runLen (xs.drop i) (ys.drop j)) else b

def bestInner {α : Type} [DecidableEq α] (xs ys : List α) (i : Nat)
    (b : Nat × Nat × Nat) : Nat × Nat × Nat :=
  (List.range ys.length).foldl (stepJ xs ys i) b

/-- The `(match.a, match.b, match.size)` triple of `find_longest_match` over
the two whole sequences. -/
def bestMatch {α : Type} [DecidableEq α] (xs ys : List α) : Nat × Nat × Nat :=
  (List.range xs.length).foldl (fun b i => bestInner xs ys i b) (0, 0, 0)

/-- `find_best_overlap_index` of process_teams_transcript.py lines 191-249.
(The guard `min_len <= 0` becomes `min_len = 0` over `Nat`; the script calls
it with the positive constant `MIN_OVERLAP_LENGTH = 3`.) -/
def find_best_overlap_index {α : Type} [DecidableEq α]
    (previous_parts current_parts : List α) (lookback_prev min_len : Nat) : Nat :=
  if previous_parts = [] ∨ current_parts = [] ∨ min_len = 0 then 0
  else
    let prev_slice := previous_parts.drop (previous_parts.length - lookback_prev)
    if prev_slice = [] ∨ current_parts = [] then 0
    else
      let m := bestMatch prev_slice current_parts
      if min_len ≤ m.2.2 then min (m.2.1 + m.2.2) current_parts.length else 0

/-- One reconciliation step of the per-file loop (lines 363-395): skip an
empty extraction, seed an empty transcript, otherwise append the part of
`current` after the overlap index (`OVERLAP_LOOKBACK_PREVIOUS = 30`,
`MIN_OVERLAP_LENGTH = 3`). -/
def reconcileStep {α : Type} [DecidableEq α] (transcript current : List α) : List α :=
  if current = [] then transcript
  else if transcript = [] then transcript ++ current
  else
    let idx := find_best_overlap_index transcript current 30 3
    if idx < current.length then transcript ++ current.drop idx else transcript

/-- One full snapshot step: `none` models a file skipped for a JSON decode or
read error (lines 367-374), `some ps` a successful extraction. -/
def snapshotStep {α : Type} [DecidableEq α] (t : List α) (s : Option (List α)) : List α :=
  match s with
  | none => t
  | some ps => reconcileStep t ps

/-
Snapshot sequencing (lines 167-189 and 309-327).
-/

structure TS where
  y : Nat
  mo : Nat
  da : Nat
  hh : Nat
  mi : Nat
  ss : Nat
deriving DecidableEq

def TS.fields (t : TS) : List Nat := [t.y, t.mo, t.da, t.hh, t.mi, t.ss]

def dval (c : Char) : Nat := c.toNat - 48

/-- Try to match the 19-character pattern `\d{4}-\d{2}-\d{2}-\d{2}-\d{2}-\d{2}`
at the head of the string (ASCII digits). -/
def matchTSAt : PyStr → Option TS
  | a1 :: a2 :: a3 :: a4 :: b1 :: a5 :: a6 :: b2 :: a7 :: a8 :: b3 ::
      a9 :: a10 :: b4 :: a11 :: a12 :: b5 :: a13 :: a14 :: _ =>
    if a1.isDigit && a2.isDigit && a3.isDigit && a4.isDigit && a5.isDigit &&
        a6.isDigit && a7.isDigit && a8.isDigit && a9.isDigit && a10.isDigit &&
        a11.isDigit && a12.isDigit && a13.isDigit && a14.isDigit &&
        b1 == '-' && b2 == '-' && b3 == '-' && b4 == '-' && b5 == '-' then
      some ⟨dval a1 * 1000 + dval a2 * 100 + dval a3 * 10 + dval a4,
            dval a5 * 10 + dval a6, dval a7 * 10 + dval a8,
            dval a9 * 10 + dval a10, dval a11 * 10 + dval a12,
            dval a13 * 10 + dval a14⟩
    else none
  | _ => none

def isLeap (y : Nat) : Bool := y % 4 == 0 && (y % 100 != 0 || y % 400 == 0)

def daysInMonth (y m : Nat) : Nat :=
  if m = 2 then (if isLeap y then 29 else 28)
  else if m = 4 ∨ m = 6 ∨ m = 9 ∨ m = 11 then 30 else 31

/-- The validation `datetime.datetime.strptime(ts, "%Y-%m-%d-%H-%M-%S")`
performs beyond the digit shape: a real calendar date and clock time
(`ValueError` otherwise, which `get_timestamp_from_filename` turns into
`None`). -/
def validTS (t : TS) : Bool :=
  decide (1 ≤ t.y) && decide (1 ≤ t.mo) && decide (t.mo ≤ 12) &&
  decide (1 ≤ t.da) && decide (t.da ≤ daysInMonth t.y t.mo) &&
  decide (t.hh ≤ 23) && decide (t.mi ≤ 59) && decide (t.ss ≤ 59)

/-- `get_timestamp_from_filename` (lines 167-189): `re.search` finds the
leftmost position where the digit pattern matches; `strptime` then validates
it, and a validation failure yields `None` without trying later positions. -/
def getTimestamp : PyStr → Option TS
  | [] => none
  | c :: rest =>
    match matchTSAt (c :: rest) with
    | some t => if validTS t then some t else none
    | none => getTimestamp rest

/-- `file.lower().endswith(".json")` (line 314). -/
def isJsonName (f : PyStr) : Bool := (".json".toList).isSuffixOf (f.map Char.toLower)

/-- CPython's ordering on the sort keys `(timestamp, path)` (line 326 sorts
tuples): earlier timestamp first, identical timestamps ordered by the
code-point order of the file name. -/
def keyRel (a b : TS × PyStr) : Prop :=
  (a.1.fields ≠ b.1.fields ∧ lexLe a.1.fields b.1.fields = true) ∨
  (a.1.fields = b.1.fields ∧ lexLe (charVals a.2) (charVals b.2) = true)

instance : DecidableRel keyRel := fun a b => by unfold keyRel; infer_instance

/-- Lines 309-327: keep the `.json`-named files with a parsable filename
timestamp and sort the `(timestamp, name)` pairs. -/
def collectSnapshots (files : List PyStr) : List (TS × PyStr) :=
  List.insertionSort keyRel (files.filterMap fun f =>
    if isJsonName f then (getTimestamp f).map (fun ts => (ts, f)) else none)

/-
The whole `process_teams_directory` run (lines 296-423), with the filesystem
abstracted: `isDir` is the `os.path.isdir` check, `files` the names yielded
by `os.walk`, `mkdirOk` the `os.makedirs` outcome, `readFile` the decoded
tree of each file (`none` = decode/read error), `writeOk` the outcome of
writing the formatted transcript.
-/

structure TeamsEnv where
  isDir : Bool
  files : List PyStr
  mkdirOk : Bool
  readFile : PyStr → Option JTree
  writeOk : Bool

/-- The accumulated `all_transcript_parts` after the per-file loop. -/
def finalParts (env : TeamsEnv) : List Utt :=
  ((collectSnapshots env.files).map
    (fun p => (env.readFile p.2).map findTranscriptPartsTeamsRobust)).foldl snapshotStep []

/-- Result code of `process_teams_directory`: 1 models `sys.exit(1)`, 0 a
normal return.  Note that on the empty-transcript path (lines 402-411) a
failing write of the empty output file is caught and the function still
returns normally. -/
def runTeams (env : TeamsEnv) : Nat :=
  if ¬env.isDir then 1
  else if collectSnapshots env.files = [] then 1
  else if ¬env.mkdirOk then 1
  else if finalParts env = [] then 0
  else if env.writeOk then 0 else 1

/-
The formatter `format_combined_transcript` (lines 252-292).
-/

/-- `flush_buffer` (lines 270-278): append the header line `[speaker]` and
the joined message (plus a trailing newline) when the speaker is set and the
joined, stripped message is non-empty. -/
def flushBuf (spk : Option PyStr) (buf : List PyStr) (lines : List PyStr) : List PyStr :=
  match spk with
  | none => lines
  | some s =>
    if s = [] ∨ buf = [] then lines
    else
      let msg := pyStrip (joinSp buf)
      if msg = [] then lines else lines ++ [('[' :: s) ++ [']'], msg ++ ['\n']]

/-- The main loop of `format_combined_transcript` (lines 280-290), with the
current speaker, current buffer and emitted lines as explicit state. -/
def formatLoop : List Utt → Option PyStr → List PyStr → List PyStr → List PyStr
  | [], spk, buf, lines => flushBuf spk buf lines
  | (s, t) :: rest, spk, buf, lines =>
    if some s = spk then formatLoop rest spk (buf ++ [t]) lines
    else formatLoop rest (some s) [t] (flushBuf spk buf lines)

/-- `format_combined_transcript` (lines 252-292). -/
def format_combined_transcript (parts : List Utt) : PyStr :=
  if parts = [] then [] else List.intercalate ['\n'] (formatLoop parts none [] [])

/-
Formatter written from the spec's words (§4.5), for the refinement claim:
group the transcript into maximal runs of consecutive same-speaker
utterances; each run becomes a block of a `[speaker]` header line and the
run's texts joined by single spaces, with a trailing newline; blocks are
joined by a blank line.
-/

def groupRunsAux : List Utt → PyStr → List PyStr → List (PyStr × List PyStr)
  | [], s, acc => [(s, acc.reverse)]
  | (s2, t) :: rest, s, acc =>
    if s2 = s then groupRunsAux rest s (t :: acc)
    else (s, acc.reverse) :: groupRunsAux rest s2 [t]

/-- Maximal runs of consecutive same-speaker utterances. -/
def groupRuns : List Utt → List (PyStr × List PyStr)
  | [] => []
  | (s, t) :: rest => groupRunsAux rest s [t]

def blockLines (gs : List (PyStr × List PyStr)) : List PyStr :=
  gs.flatMap (fun g => [('[' :: g.1) ++ [']'], joinSp g.2 ++ ['\n']])

/-- Spec-words formatter: one block per maximal same-speaker run, blocks
separated by a blank line, empty transcript giving the empty string. -/
def formatSpec (parts : List Utt) : PyStr :=
  List.intercalate ['\n'] (blockLines (groupRuns parts))

/-
The Zoom extractor `parse_zoom_json` (process_zoom_transcript.py
lines 10-75).  A row carries its cells; only the first cell's contents are
inspected.
-/

structure ZItem where
  role : Option PyStr
  value : Option PyStr
deriving DecidableEq

structure ZCell where
  contents : List ZItem
deriving DecidableEq

structure ZRow where
  cells : List ZCell
deriving DecidableEq

/-- Python truthiness of an optional string (`None` and `""` are falsy). -/
def truthyS : Option PyStr → Bool
  | none => false
  | some s => !s.isEmpty

/-- `cell_values` (line 37): the values of the AXTextArea items, with a
missing value defaulting to the empty string. -/
def zVals (contents : List ZItem) : List PyStr :=
  contents.filterMap fun it =>
    if it.role = some ("AXTextArea".toList) then some (it.value.getD []) else none

/-- `has_image` (line 38). -/
def zHasImage (contents : List ZItem) : Bool :=
  contents.any fun it => it.role == some ("AXImage".toList)

structure ZState where
  spk : Option PyStr
  ts : Option PyStr
  buf : List PyStr
  out : List (PyStr × PyStr × PyStr)
deriving DecidableEq

/-- Flush the buffered dialogue (lines 42-47, 56-60, 70-73): the out list
with the joined, stripped dialogue appended when non-empty. -/
def zFlush (st : ZState) : List (PyStr × PyStr × PyStr) :=
  let dialogue := pyStrip (joinSp st.buf)
  if dialogue = [] then st.out else st.out ++ [(st.spk.getD [], st.ts.getD [], dialogue)]

/-- One row of the `parse_zoom_json` loop (lines 27-67). -/
def zStep (st : ZState) (row : ZRow) : ZState :=
  match row.cells with
  | [] => st
  | c0 :: _ =>
    match c0.contents with
    | [] => st
    | it0 :: its =>
      let contents := it0 :: its
      let vals := zVals contents
      if zHasImage contents then
        let st1 :=
          if truthyS st.spk && !st.buf.isEmpty && truthyS st.ts then
            { st with out := zFlush st, buf := [], ts := none }
          else st
        { st1 with
          spk := some (match vals with
            | v :: _ => pyStrip v
            | [] => "Unknown Speaker".toList) }
      else if !vals.isEmpty && truthyS st.spk then
        match vals with
        | v0 :: v1 :: _ =>
          if v0.count ':' = 2 then
            let st1 :=
              if !st.buf.isEmpty && truthyS st.ts then
                { st with out := zFlush st, buf := [] }
              else st
            { st1 with ts := some (pyStrip v0), buf := st1.buf ++ [pyStrip v1] }
          else { st with buf := st.buf ++ vals.map pyStrip }
        | _ => { st with buf := st.buf ++ vals.map pyStrip }
      else st

def zInit : ZState := ⟨none, none, [], []⟩

/-- `parse_zoom_json` (lines 10-75): fold the rows, then flush once more. -/
def parseZoom (rows : List ZRow) : List (PyStr × PyStr × PyStr) :=
  let st := rows.foldl zStep zInit
  if truthyS st.spk && truthyS st.ts && !st.buf.isEmpty then zFlush st else st.out

/-- Whether a row is a speaker-change (image-marker) row. -/
def rowHasImage (r : ZRow) : Bool :=
  match r.cells with
  | [] => false
  | c0 :: _ => zHasImage c0.contents

/-
Lemmas about the overlap search.
-/

theorem runLen_nil_left {α : Type} [DecidableEq α] (v : List α) : runLen ([] : List α) v = 0 := by
  cases v <;> simp [runLen]

theorem runLen_nil_right {α : Type} [DecidableEq α] (u : List α) : runLen u ([] : List α) = 0 := by
  cases u <;> simp [runLen]

theorem runLen_le_right {α : Type} [DecidableEq α] :
    ∀ u v : List α, runLen u v ≤ v.length := by
  intro u
  induction u with
  | nil => intro v; simp [runLen_nil_left]
  | cons a as ih =>
    intro v
    cases v with
    | nil => simp [runLen_nil_right]
    | cons b bs =>
      by_cases h : a = b
      · simpa [runLen, h] using ih bs
      · simp [runLen, h]

theorem runLen_take_eq {α : Type} [DecidableEq α] :
    ∀ u v : List α, u.take (runLen u v) = v.take (runLen u v) := by
  intro u
  induction u with
  | nil => intro v; simp [runLen_nil_left]
  | cons a as ih =>
    intro v
    cases v with
    | nil => simp [runLen_nil_right]
    | cons b bs =>
      by_cases h : a = b
      · simp [runLen, h, ih bs]
      · simp [runLen, h]

theorem stepJ_size_le {α : Type} [DecidableEq α] (xs ys : List α) (i : Nat)
    (b : Nat × Nat × Nat) (j : Nat) : b.2.2 ≤ (stepJ xs ys i b j).2.2 := by
  unfold stepJ
  split
  · next h => exact Nat.le_of_lt h
  · exact Nat.le_refl _

theorem stepJ_size_ge_run {α : Type} [DecidableEq α] (xs ys : List α) (i : Nat)
    (b : Nat × Nat × Nat) (j : Nat) :
    runLen (xs.drop i) (ys.drop j) ≤ (stepJ xs ys i b j).2.2 := by
  unfold stepJ
  split
  · exact Nat.le_refl _
  · next h => exact Nat.le_of_not_lt h

theorem foldl_stepJ_mono {α : Type} [DecidableEq α] (xs ys : List α) (i : Nat) :
    ∀ (l : List Nat) (b : Nat × Nat × Nat), b.2.2 ≤ (l.foldl (stepJ xs ys i) b).2.2 := by
  intro l
  induction l with
  | nil => intro b; exact Nat.le_refl _
  | cons j l ih => intro b; exact Nat.le_trans (stepJ_size_le xs ys i b j) (ih _)

theorem foldl_stepJ_ge {α : Type} [DecidableEq α] (xs ys : List α) (i : Nat) :
    ∀ (l : List Nat) (b : Nat × Nat × Nat) (j : Nat), j ∈ l →
      runLen (xs.drop i) (ys.drop j) ≤ (l.foldl (stepJ xs ys i) b).2.2 := by
  intro l
  induction l with
  | nil => intro b j hj; cases hj
  | cons a l ih =>
    intro b j hj
    rcases List.mem_cons.1 hj with h | h
    · subst h
      exact Nat.le_trans (stepJ_size_ge_run xs ys i b j) (foldl_stepJ_mono xs ys i l _)
    · exact ih _ j h

theorem bestInner_mono {α : Type} [DecidableEq α] (xs ys : List α) (i : Nat)
    (b : Nat × Nat × Nat) : b.2.2 ≤ (bestInner xs ys i b).2.2 :=
  foldl_stepJ_mono xs ys i _ b

theorem foldl_outer_mono {α : Type} [DecidableEq α] (xs ys : List α) :
    ∀ (l : List Nat) (b : Nat × Nat × Nat),
      b.2.2 ≤ (l.foldl (fun b i => bestInner xs ys i b) b).2.2 := by
  intro l
  induction l with
  | nil => intro b; exact Nat.le_refl _
  | cons i l ih => intro b; exact Nat.le_trans (bestInner_mono xs ys i b) (ih _)

theorem foldl_outer_ge {α : Type} [DecidableEq α] (xs ys : List α) :
    ∀ (l : List Nat) (b : Nat × Nat × Nat) (i j : Nat), i ∈ l → j < ys.length →
      runLen (xs.drop i) (ys.drop j) ≤ (l.foldl (fun b i => bestInner xs ys i b) b).2.2 := by
  intro l
  induction l with
  | nil => intro b i j hi hj; cases hi
  | cons a l ih =>
    intro b i j hi hj
    rcases List.mem_cons.1 hi with h | h
    · subst h
      refine Nat.le_trans ?_ (foldl_outer_mono xs ys l _)
      exact foldl_stepJ_ge xs ys i _ b j (List.mem_range.2 hj)
    · exact ih _ i j h hj

/-- The size of `find_longest_match`'s answer dominates every common
contiguous run. -/
theorem bestMatch_ge {α : Type} [DecidableEq α] (xs ys : List α) (i j : Nat) :
    runLen (xs.drop i) (ys.drop j) ≤ (bestMatch xs ys).2.2 := by
  by_cases hi : i < xs.length
  · by_cases hj : j < ys.length
    · exact foldl_outer_ge xs ys _ _ i j (List.mem_range.2 hi) hj
    · rw [List.drop_eq_nil_of_le (Nat.le_of_not_lt hj), runLen_nil_right]
      exact Nat.zero_le _
  · rw [List.drop_eq_nil_of_le (Nat.le_of_not_lt hi), runLen_nil_left]
    exact Nat.zero_le _

theorem stepJ_inv {α : Type} [DecidableEq α] (xs ys : List α) (i : Nat)
    (b : Nat × Nat × Nat) (j : Nat) (hi : i < xs.length) (hj : j < ys.length)
    (hb : b = (0, 0, 0) ∨ (0 < b.2.2 ∧ b.1 < xs.length ∧ b.2.1 < ys.length ∧
      runLen (xs.drop b.1) (ys.drop b.2.1) = b.2.2)) :
    stepJ xs ys i b j = (0, 0, 0) ∨ (0 < (stepJ xs ys i b j).2.2 ∧
      (stepJ xs ys i b j).1 < xs.length ∧ (stepJ xs ys i b j).2.1 < ys.length ∧
      runLen (xs.drop (stepJ xs ys i b j).1) (ys.drop (stepJ xs ys i b j).2.1) =
        (stepJ xs ys i b j).2.2) := by
  unfold stepJ
  split
  · next h => exact Or.inr ⟨Nat.lt_of_le_of_lt (Nat.zero_le _) h, hi, hj, rfl⟩
  · exact hb

theorem foldl_stepJ_inv {α : Type} [DecidableEq α] (xs ys : List α) (i : Nat)
    (hi : i < xs.length) :
    ∀ (l : List Nat) (b : Nat × Nat × Nat), (∀ j ∈ l, j < ys.length) →
      (b = (0, 0, 0) ∨ (0 < b.2.2 ∧ b.1 < xs.length ∧ b.2.1 < ys.length ∧
        runLen (xs.drop b.1) (ys.drop b.2.1) = b.2.2)) →
      ((l.foldl (stepJ xs ys i) b) = (0, 0, 0) ∨
        (0 < (l.foldl (stepJ xs ys i) b).2.2 ∧
         (l.foldl (stepJ xs ys i) b).1 < xs.length ∧
         (l.foldl (stepJ xs ys i) b).2.1 < ys.length ∧
         runLen (xs.drop (l.foldl (stepJ xs ys i) b).1)
           (ys.drop (l.foldl (stepJ xs ys i) b).2.1) = (l.foldl (stepJ xs ys i) b).2.2)) := by
  intro l
  induction l with
  | nil => intro b _ hb; exact hb
  | cons j l ih =>
    intro b hjs hb
    exact ih _ (fun x hx => hjs x (List.mem_cons_of_mem j hx))
      (stepJ_inv xs ys i b j hi (hjs j (List.mem_cons_self j l)) hb)

theorem foldl_outer_inv {α : Type} [DecidableEq α] (xs ys : List α) :
    ∀ (l : List Nat) (b : Nat × Nat × Nat), (∀ i ∈ l, i < xs.length) →
      (b = (0, 0, 0) ∨ (0 < b.2.2 ∧ b.1 < xs.length ∧ b.2.1 < ys.length ∧
        runLen (xs.drop b.1) (ys.drop b.2.1) = b.2.2)) →
      ((l.foldl (fun b i => bestInner xs ys i b) b) = (0, 0, 0) ∨
        (0 < (l.foldl (fun b i => bestInner xs ys i b) b).2.2 ∧
         (l.foldl (fun b i => bestInner xs ys i b) b).1 < xs.length ∧
         (l.foldl (fun b i => bestInner xs ys i b) b).2.1 < ys.length ∧
         runLen (xs.drop (l.foldl (fun b i => bestInner xs ys i b) b).1)
           (ys.drop (l.foldl (fun b i => bestInner xs ys i b) b).2.1) =
           (l.foldl (fun b i => bestInner xs ys i b) b).2.2)) := by
  intro l
  induction l with
  | nil => intro b _ hb; exact hb
  | cons i l ih =>
    intro b his hb
    refine ih _ (fun x hx => his x (List.mem_cons_of_mem i hx)) ?_
    exact foldl_stepJ_inv xs ys i (his i (List.mem_cons_self i l)) _ b
      (fun j hj => List.mem_range.1 hj) hb

/-- Either no common run exists (answer `(0,0,0)`) or the answer names an
in-range block whose run length is exactly its size. -/
theorem bestMatch_inv {α : Type} [DecidableEq α] (xs ys : List α) :
    bestMatch xs ys = (0, 0, 0) ∨ (0 < (bestMatch xs ys).2.2 ∧
      (bestMatch xs ys).1 < xs.length ∧ (bestMatch xs ys).2.1 < ys.length ∧
      runLen (xs.drop (bestMatch xs ys).1) (ys.drop (bestMatch xs ys).2.1) =
        (bestMatch xs ys).2.2) :=
  foldl_outer_inv xs ys _ _ (fun i hi => List.mem_range.1 hi) (Or.inl rfl)

theorem bestMatch_block {α : Type} [DecidableEq α] (xs ys : List α) :
    (xs.drop (bestMatch xs ys).1).take (bestMatch xs ys).2.2 =
      (ys.drop (bestMatch xs ys).2.1).take (bestMatch xs ys).2.2 := by
  rcases bestMatch_inv xs ys with h0 | ⟨_, _, _, hrun⟩
  · rw [h0]; simp
  · rw [← hrun]; exact runLen_take_eq _ _

theorem bestMatch_end_le {α : Type} [DecidableEq α] (xs ys : List α) :
    (bestMatch xs ys).2.1 + (bestMatch xs ys).2.2 ≤ ys.length := by
  rcases bestMatch_inv xs ys with h0 | ⟨_, _, hj, hrun⟩
  · rw [h0]; exact Nat.zero_le _
  · have h := runLen_le_right (xs.drop (bestMatch xs ys).1) (ys.drop (bestMatch xs ys).2.1)
    rw [hrun, List.length_drop] at h
    omega

theorem tail30_ne_nil {α : Type} (t : List α) (h : t ≠ []) :
    t.drop (t.length - 30) ≠ [] := by
  intro hc
  rw [List.drop_eq_nil_iff] at hc
  have : 0 < t.length := List.length_pos.2 h
  omega

/-- Closed form of `find_best_overlap_index` at the script's constants. -/
theorem fboi_eq {α : Type} [DecidableEq α] (t c : List α) (h1 : t ≠ []) (h2 : c ≠ []) :
    find_best_overlap_index t c 30 3 =
      (if 3 ≤ (bestMatch (t.drop (t.length - 30)) c).2.2 then
        (bestMatch (t.drop (t.length - 30)) c).2.1 + (bestMatch (t.drop (t.length - 30)) c).2.2
      else 0) := by
  simp only [find_best_overlap_index]
  rw [if_neg (by simp [h1, h2]), if_neg (by simp [tail30_ne_nil t h1, h2])]
  split
  · exact Nat.min_eq_left (bestMatch_end_le _ _)
  · rfl

theorem reconcileStep_eq {α : Type} [DecidableEq α] (t c : List α) (h1 : t ≠ []) (h2 : c ≠ []) :
    reconcileStep t c = t ++ c.drop (find_best_overlap_index t c 30 3) := by
  simp only [reconcileStep]
  rw [if_neg h2, if_neg h1]
  split
  · rfl
  · next h =>
    rw [List.drop_eq_nil_of_le (Nat.le_of_not_lt h), List.append_nil]

/-- C1: for a non-empty accumulated transcript and non-empty new sequence,
reconciliation compares the at-most-30-utterance tail of the transcript with
the whole new sequence; the match it finds is a common contiguous block equal
element-wise, its size dominates every common contiguous run of the two
sequences, and when that size is at least 3 the step appends to the
transcript exactly the elements of the new sequence after the block's end
position in the new sequence, keeping the transcript's elements in place. -/
theorem c1_overlap_run_and_append (t c : List Utt) (h1 : t ≠ []) (h2 : c ≠ []) :
    (∀ i j, runLen ((t.drop (t.length - 30)).drop i) (c.drop j) ≤
      (bestMatch (t.drop (t.length - 30)) c).2.2) ∧
    ((t.drop (t.length - 30)).drop (bestMatch (t.drop (t.length - 30)) c).1).take
        (bestMatch (t.drop (t.length - 30)) c).2.2 =
      (c.drop (bestMatch (t.drop (t.length - 30)) c).2.1).take
        (bestMatch (t.drop (t.length - 30)) c).2.2 ∧
    (3 ≤ (bestMatch (t.drop (t.length - 30)) c).2.2 →
      reconcileStep t c =
        t ++ c.drop ((bestMatch (t.drop (t.length - 30)) c).2.1 +
          (bestMatch (t.drop (t.length - 30)) c).2.2)) := by
  refine ⟨fun i j => bestMatch_ge _ _ i j, bestMatch_block _ _, fun h3 => ?_⟩
  rw [reconcileStep_eq t c h1 h2, fboi_eq t c h1 h2, if_pos h3]

/-- C1 witness: a 3-utterance overlap is removed and only the genuinely new
utterance is appended. -/
theorem c1_witness :
    reconcileStep
      [("a".toList, "1".toList), ("b".toList, "2".toList),
       ("c".toList, "3".toList), ("d".toList, "4".toList)]
      [("b".toList, "2".toList), ("c".toList, "3".toList),
       ("d".toList, "4".toList), ("e".toList, "5".toList)] =
    [("a".toList, "1".toList), ("b".toList, "2".toList),
     ("c".toList, "3".toList), ("d".toList, "4".toList),
     ("e".toList, "5".toList)] := by
  have h := (c1_overlap_run_and_append
    [("a".toList, "1".toList), ("b".toList, "2".toList),
     ("c".toList, "3".toList), ("d".toList, "4".toList)]
    [("b".toList, "2".toList), ("c".toList, "3".toList),
     ("d".toList, "4".toList), ("e".toList, "5".toList)]
    (by decide) (by decide)).2.2 (by decide)
  rw [h]; decide

/-- C2: when every common contiguous run of the 30-utterance tail and the new
sequence is shorter than 3, the whole new sequence is appended (fail-open). -/
theorem c2_fail_open_appends_all (t c : List Utt) (h1 : t ≠ []) (h2 : c ≠ [])
    (h3 : ∀ i < (t.drop (t.length - 30)).length, ∀ j < c.length,
      runLen ((t.drop (t.length - 30)).drop i) (c.drop j) < 3) :
    reconcileStep t c = t ++ c := by
  have hlt : (bestMatch (t.drop (t.length - 30)) c).2.2 < 3 := by
    rcases bestMatch_inv (t.drop (t.length - 30)) c with h0 | ⟨_, hi, hj, hrun⟩
    · rw [h0]; decide
    · rw [← hrun]; exact h3 _ hi _ hj
  rw [reconcileStep_eq t c h1 h2, fboi_eq t c h1 h2, if_neg (by omega), List.drop_zero]

/-- C2 witness: the spec's crafted pair with only a 2-utterance overlap; all
of the new snapshot is appended (duplicating the overlap). -/
theorem c2_witness :
    reconcileStep
      [("a".toList, "1".toList), ("b".toList, "2".toList),
       ("c".toList, "3".toList), ("d".toList, "4".toList)]
      [("c".toList, "3".toList), ("d".toList, "4".toList), ("e".toList, "5".toList)] =
    [("a".toList, "1".toList), ("b".toList, "2".toList),
     ("c".toList, "3".toList), ("d".toList, "4".toList)] ++
    [("c".toList, "3".toList), ("d".toList, "4".toList), ("e".toList, "5".toList)] :=
  c2_fail_open_appends_all
    [("a".toList, "1".toList), ("b".toList, "2".toList),
     ("c".toList, "3".toList), ("d".toList, "4".toList)]
    [("c".toList, "3".toList), ("d".toList, "4".toList), ("e".toList, "5".toList)]
    (by decide) (by decide) (by decide)

/-- C3: every per-snapshot step (decode failure, empty extraction, full,
partial or no overlap) only appends: the transcript before the step is a
prefix of the transcript after it, and hence of the result of the whole
loop. -/
theorem c3_transcript_monotonic (t : List Utt) (snaps : List (Option (List Utt))) :
    (∀ s, t <+: snapshotStep t s) ∧ t <+: snaps.foldl snapshotStep t := by
  have hstep : ∀ (u : List Utt) (s : Option (List Utt)), u <+: snapshotStep u s := by
    intro u s
    cases s with
    | none => exact List.prefix_rfl
    | some ps =>
      simp only [snapshotStep, reconcileStep]
      split
      · exact List.prefix_rfl
      · split
        · exact List.prefix_append _ _
        · split
          · exact List.prefix_append _ _
          · exact List.prefix_rfl
  refine ⟨hstep t, ?_⟩
  induction snaps generalizing t with
  | nil => exact List.prefix_rfl
  | cons s l ih => exact (hstep t s).trans (ih _)

/-- C3 witness: a run over a decode failure, an empty extraction, a partial
overlap and a disjoint snapshot preserves the starting transcript as a
prefix. -/
theorem c3_witness :
    [("a".toList, "1".toList)] <+:
      List.foldl snapshotStep [("a".toList, "1".toList)]
        [none, some [], some [("b".toList, "2".toList)],
         some [("x".toList, "9".toList)]] :=
  (c3_transcript_monotonic [("a".toList, "1".toList)]
    [none, some [], some [("b".toList, "2".toList)],
     some [("x".toList, "9".toList)]]).2

/-
Lemmas about stripping and joining, for the formatter claim.
-/

theorem dropWhile_length_eq {p : Char → Bool} :
    ∀ l : List Char, (l.dropWhile p).length = l.length → l.dropWhile p = l := by
  intro l h
  cases l with
  | nil => rfl
  | cons a l =>
    by_cases hp : p a = true
    · rw [List.dropWhile_cons, if_pos hp] at h
      have := (List.dropWhile_sublist (l := l) p).length_le
      simp at h
      omega
    · rw [List.dropWhile_cons, if_neg hp]

theorem trimmed_iff (l : PyStr) :
    pyStrip l = l ↔ l.dropWhile isPyWS = l ∧ l.reverse.dropWhile isPyWS = l.reverse := by
  constructor
  · intro h
    have hplen : (pyStrip l).length = ((l.dropWhile isPyWS).reverse.dropWhile isPyWS).length := by
      simp [pyStrip]
    have hlen1 : ((l.dropWhile isPyWS).reverse.dropWhile isPyWS).length ≤
        (l.dropWhile isPyWS).length := by
      have := (List.dropWhile_sublist (l := (l.dropWhile isPyWS).reverse) isPyWS).length_le
      simpa using this
    have hlen2 : (l.dropWhile isPyWS).length ≤ l.length :=
      (List.dropWhile_sublist (l := l) isPyWS).length_le
    rw [h] at hplen
    have hm : l.dropWhile isPyWS = l := dropWhile_length_eq _ (by omega)
    refine ⟨hm, ?_⟩
    rw [hm] at hplen
    exact dropWhile_length_eq _ (by rw [List.length_reverse]; omega)
  · intro h
    obtain ⟨h1, h2⟩ := h
    simp [pyStrip, h1, h2]

theorem head_not_ws_of_dropWhile_self (c : Char) (r : List Char)
    (h : (c :: r).dropWhile isPyWS = c :: r) : isPyWS c = false := by
  cases hcw : isPyWS c with
  | false => rfl
  | true =>
    rw [List.dropWhile_cons, if_pos hcw] at h
    have := (List.dropWhile_sublist (l := r) isPyWS).length_le
    have hlen := congrArg List.length h
    simp at hlen
    omega

theorem trimmed_head (b : PyStr) (hne : b ≠ []) (htr : pyStrip b = b) :
    ∃ c r, b = c :: r ∧ isPyWS c = false := by
  obtain ⟨h1, _⟩ := (trimmed_iff b).1 htr
  cases b with
  | nil => exact absurd rfl hne
  | cons c r => exact ⟨c, r, rfl, head_not_ws_of_dropWhile_self c r h1⟩

theorem trimmed_last (b : PyStr) (hne : b ≠ []) (htr : pyStrip b = b) :
    ∃ c r, b.reverse = c :: r ∧ isPyWS c = false := by
  obtain ⟨_, h2⟩ := (trimmed_iff b).1 htr
  cases hb : b.reverse with
  | nil => exact absurd (List.reverse_eq_nil_iff.1 hb) hne
  | cons c r =>
    rw [hb] at h2
    exact ⟨c, r, rfl, head_not_ws_of_dropWhile_self c r h2⟩

theorem trimmed_of_ends (l : PyStr) (c1 : Char) (r1 : List Char) (c2 : Char) (r2 : List Char)
    (h1 : l = c1 :: r1) (hw1 : isPyWS c1 = false)
    (h2 : l.reverse = c2 :: r2) (hw2 : isPyWS c2 = false) : pyStrip l = l := by
  refine (trimmed_iff l).2 ⟨?_, ?_⟩
  · rw [h1, List.dropWhile_cons, if_neg (by simp [hw1])]
  · rw [h2, List.dropWhile_cons, if_neg (by simp [hw2])]

/-- Joining non-empty, already-trimmed fragments with single spaces yields a
non-empty, already-trimmed string (so the formatter's final `strip()` is the
identity on it). -/
theorem joinSp_good : ∀ bufs : List PyStr, bufs ≠ [] →
    (∀ b ∈ bufs, b ≠ [] ∧ pyStrip b = b) →
    joinSp bufs ≠ [] ∧ pyStrip (joinSp bufs) = joinSp bufs := by
  intro bufs
  induction bufs with
  | nil => intro h; exact absurd rfl h
  | cons b rest ih =>
    intro _ hgood
    obtain ⟨hbne, hbtr⟩ := hgood b (List.mem_cons_self b rest)
    cases rest with
    | nil => simpa [joinSp] using ⟨hbne, hbtr⟩
    | cons b2 r2 =>
      obtain ⟨hjne, hjtr⟩ :=
        ih (by simp) (fun x hx => hgood x (List.mem_cons_of_mem b hx))
      obtain ⟨c1, r1, hc1, hw1⟩ := trimmed_head b hbne hbtr
      obtain ⟨c2, rr2, hc2, hw2⟩ := trimmed_last (joinSp (b2 :: r2)) hjne hjtr
      have hj : joinSp (b :: b2 :: r2) = b ++ ' ' :: joinSp (b2 :: r2) := rfl
      constructor
      · rw [hj, hc1]; simp
      · refine trimmed_of_ends _ c1 (r1 ++ ' ' :: joinSp (b2 :: r2)) c2
          (rr2 ++ ' ' :: b.reverse) ?_ hw1 ?_ hw2
        · rw [hj, hc1]; rfl
        · rw [hj]
          rw [show (b ++ ' ' :: joinSp (b2 :: r2)).reverse =
            (joinSp (b2 :: r2)).reverse ++ ' ' :: b.reverse by simp]
          rw [hc2]; rfl

/-- On a set speaker and a non-empty buffer of non-empty trimmed fragments,
`flush_buffer` emits exactly the header line and the joined paragraph. -/
theorem flushBuf_good (s : PyStr) (buf : List PyStr) (lines : List PyStr)
    (hs : s ≠ []) (hbuf : buf ≠ []) (hgood : ∀ b ∈ buf, b ≠ [] ∧ pyStrip b = b) :
    flushBuf (some s) buf lines = lines ++ [('[' :: s) ++ [']'], joinSp buf ++ ['\n']] := by
  obtain ⟨hne, htr⟩ := joinSp_good buf hbuf hgood
  simp only [flushBuf]
  rw [if_neg (by simp [hs, hbuf]), htr, if_neg hne]

/-- The formatter loop, started on speaker `s` with pending buffer `buf`,
emits exactly the blocks of the maximal same-speaker runs. -/
theorem formatLoop_spec : ∀ (parts : List Utt) (s : PyStr) (buf : List PyStr)
    (lines : List PyStr), s ≠ [] → buf ≠ [] →
    (∀ b ∈ buf, b ≠ [] ∧ pyStrip b = b) →
    (∀ u ∈ parts, u.1 ≠ [] ∧ u.2 ≠ [] ∧ pyStrip u.2 = u.2) →
    formatLoop parts (some s) buf lines =
      lines ++ blockLines (groupRunsAux parts s buf.reverse) := by
  intro parts
  induction parts with
  | nil =>
    intro s buf lines hs hbuf hgood _
    have : formatLoop [] (some s) buf lines = flushBuf (some s) buf lines := rfl
    rw [this, flushBuf_good s buf lines hs hbuf hgood]
    simp [groupRunsAux, blockLines]
  | cons u rest ih =>
    intro s buf lines hs hbuf hgood hparts
    obtain ⟨hu1, hu2, hu3⟩ := hparts u (List.mem_cons_self u rest)
    obtain ⟨s2, t⟩ := u
    by_cases hsp : s2 = s
    · subst hsp
      have h1 : formatLoop ((s2, t) :: rest) (some s2) buf lines =
          formatLoop rest (some s2) (buf ++ [t]) lines := by
        simp [formatLoop]
      rw [h1, ih s2 (buf ++ [t]) lines hs (by simp)
        (by intro x hx
            rcases List.mem_append.1 hx with h | h
            · exact hgood x h
            · simp at h; subst h; exact ⟨hu2, hu3⟩)
        (fun x hx => hparts x (List.mem_cons_of_mem _ hx))]
      have h2 : groupRunsAux ((s2, t) :: rest) s2 buf.reverse =
          groupRunsAux rest s2 (t :: buf.reverse) := by
        simp [groupRunsAux]
      rw [h2]
      simp
    · have h1 : formatLoop ((s2, t) :: rest) (some s) buf lines =
          formatLoop rest (some s2) [t] (flushBuf (some s) buf lines) := by
        simp [formatLoop, hsp]
      rw [h1, flushBuf_good s buf lines hs hbuf hgood,
        ih s2 [t] _ hu1 (by simp) (by simpa using ⟨hu2, hu3⟩)
          (fun x hx => hparts x (List.mem_cons_of_mem _ hx))]
      have h2 : groupRunsAux ((s2, t) :: rest) s buf.reverse =
          (s, buf.reverse.reverse) :: groupRunsAux rest s2 [t] := by
        simp [groupRunsAux, hsp]
      rw [h2]
      simp [blockLines]

/-- C4 counterexample: on the transcript `[("A", "")]` the claim demands one
block with header `[A]` and its (empty) paragraph, i.e. the spec-words
formatter's output `"[A]\n\n"`; the code's formatter suppresses the block
entirely and returns the empty string. -/
theorem c4_counterexample :
    format_combined_transcript [("A".toList, ([] : PyStr))] ≠
      formatSpec [("A".toList, ([] : PyStr))] := by decide

/-- C4 (amended): for every transcript whose utterances have a non-empty
speaker and a non-empty, whitespace-trimmed text (the invariants extraction
guarantees), the formatter emits one block per maximal run of consecutive
same-speaker utterances — a `[speaker]` header line, then the run's texts
joined by single spaces with a trailing newline — with blocks in transcript
order separated by a blank line, and the empty transcript formats to the
empty string. -/
theorem c4_formatter_coalesces (parts : List Utt)
    (h : ∀ u ∈ parts, u.1 ≠ [] ∧ u.2 ≠ [] ∧ pyStrip u.2 = u.2) :
    format_combined_transcript parts = formatSpec parts := by
  cases parts with
  | nil => rfl
  | cons u rest =>
    obtain ⟨h1, h2, h3⟩ := h u (List.mem_cons_self u rest)
    obtain ⟨s, t⟩ := u
    have hloop : formatLoop ((s, t) :: rest) none [] [] =
        formatLoop rest (some s) [t] [] := by
      simp [formatLoop, flushBuf]
    have hmain : format_combined_transcript ((s, t) :: rest) =
        List.intercalate ['\n'] (formatLoop ((s, t) :: rest) none [] []) := by
      simp [format_combined_transcript]
    rw [hmain, hloop, formatLoop_spec rest s [t] [] h1 (by simp)
      (by simpa using ⟨h2, h3⟩) (fun x hx => h x (List.mem_cons_of_mem _ hx))]
    simp [formatSpec, groupRuns]

/-- C4 witness: the spec's coalescing example, with the per-utterance
invariants discharged concretely. -/
theorem c4_witness :
    format_combined_transcript
      [("A".toList, "hi".toList), ("A".toList, "there".toList),
       ("B".toList, "yo".toList)] =
    formatSpec
      [("A".toList, "hi".toList), ("A".toList, "there".toList),
       ("B".toList, "yo".toList)] :=
  c4_formatter_coalesces _ (by decide)

/-
Lemmas about the Teams extractor, for the normalization claim.
-/

theorem matchedPair_sound (role : Option PyStr) (cs : List JTree) (ps : List Utt)
    (h : matchedPair role cs = some ps) :
    ∀ p ∈ ps, p.2 ≠ [] ∧ (∃ rawt, p.2 = normWS rawt) ∧ (∃ raws, p.1 = cleanSpeaker raws) := by
  cases role with
  | none => simp [matchedPair] at h
  | some r =>
    match cs with
    | [] => simp [matchedPair] at h
    | [c1] => simp [matchedPair] at h
    | c1 :: c2 :: c3 :: rest => simp [matchedPair] at h
    | [c1, c2] =>
      rcases c1 with ⟨r1, d1, v1, cs1⟩ | its1 | _
      · rcases c2 with ⟨r2, d2, v2, cs2⟩ | its2 | _
        · rcases v2 with _ | v2val
          · simp [matchedPair] at h
          · rcases cs1 with _ | ⟨g, gs⟩
            · simp [matchedPair] at h
            · rcases gs with _ | ⟨g2, gs2⟩
              · rcases g with ⟨rg, dg, vgo, csg⟩ | itg | _
                · rcases vgo with _ | vg
                  · simp [matchedPair] at h
                  · simp only [matchedPair] at h
                    split_ifs at h with hr hcond htext
                    · cases h
                      intro p hp
                      cases hp
                    · cases h
                      intro p hp
                      rcases List.mem_singleton.1 hp with rfl
                      exact ⟨htext, ⟨_, rfl⟩, ⟨_, rfl⟩⟩
                · simp [matchedPair] at h
                · simp [matchedPair] at h
              · simp [matchedPair] at h
        · simp [matchedPair] at h
        · simp [matchedPair] at h
      · simp [matchedPair] at h
      · simp [matchedPair] at h

/-- Every utterance the nested-group extractor emits has non-empty text that
is the whitespace-normalization of a source value, and a speaker that is the
parenthetical-stripping cleanup of a source label. -/
theorem extractPairs_shape : ∀ t : JTree, ∀ p ∈ extractPairs t,
    p.2 ≠ [] ∧ (∃ rawt, p.2 = normWS rawt) ∧ (∃ raws, p.1 = cleanSpeaker raws) := by
  refine extractPairs.induct
    (fun t => ∀ p ∈ extractPairs t,
      p.2 ≠ [] ∧ (∃ rawt, p.2 = normWS rawt) ∧ (∃ raws, p.1 = cleanSpeaker raws))
    (fun ts => ∀ p ∈ extractPairsL ts,
      p.2 ≠ [] ∧ (∃ rawt, p.2 = normWS rawt) ∧ (∃ raws, p.1 = cleanSpeaker raws))
    ?_ ?_ ?_ ?_ ?_ ?_
  · intro role d v cs ps hm p hp
    rw [show extractPairs (JTree.dict role d v cs) = ps by rw [extractPairs, hm]] at hp
    exact matchedPair_sound role cs ps hm p hp
  · intro role d v cs hm ih p hp
    rw [show extractPairs (JTree.dict role d v cs) = extractPairsL cs by
      rw [extractPairs, hm]] at hp
    exact ih p hp
  · intro its ih p hp
    exact ih p hp
  · intro p hp
    cases hp
  · intro p hp
    cases hp
  · intro t ts ih1 ih2 p hp
    rcases List.mem_append.1 hp with h | h
    · exact ih1 p h
    · exact ih2 p h

/-- C5: every utterance the nested-caption-group extractor emits has
whitespace-normalized non-empty text (a structurally matched pair whose text
is empty after normalization is discarded) and a speaker label with any
trailing parenthetical suffix stripped; in particular
"Hello   world  " normalizes to "Hello world" and "Jane Doe (Guest)" cleans
to "Jane Doe". -/
theorem c5_extraction_normalizes :
    (∀ t : JTree, ∀ p ∈ extractPairs t,
      p.2 ≠ [] ∧ (∃ rawt, p.2 = normWS rawt) ∧ (∃ raws, p.1 = cleanSpeaker raws)) ∧
    normWS "Hello   world  ".toList = "Hello world".toList ∧
    cleanSpeaker "Jane Doe (Guest)".toList = "Jane Doe".toList := by
  refine ⟨extractPairs_shape, by decide, by decide⟩

/-- C5 witness: the guarantees instantiated on a concrete matched caption
node carrying the spec's example speaker and text. -/
theorem c5_witness :
    (("Jane Doe".toList : PyStr), ("Hello world".toList : PyStr)).2 ≠ [] ∧
    (∃ rawt, (("Jane Doe".toList : PyStr), ("Hello world".toList : PyStr)).2 = normWS rawt) ∧
    (∃ raws, (("Jane Doe".toList : PyStr), ("Hello world".toList : PyStr)).1 = cleanSpeaker raws) :=
  c5_extraction_normalizes.1
    (JTree.dict (some "AXGroup".toList) none none
      [JTree.dict (some "AXGroup".toList) none none
        [JTree.dict (some "AXStaticText".toList) none (some "Jane Doe (Guest)".toList) []],
       JTree.dict (some "AXStaticText".toList) none (some "Hello   world  ".toList) []])
    ("Jane Doe".toList, "Hello world".toList) (by decide)

/-
Lemmas about the lexicographic key order, for the sequencing claim.
-/

theorem lexLe_total : ∀ a b : List Nat, lexLe a b = true ∨ lexLe b a = true := by
  intro a
  induction a with
  | nil => intro b; left; rfl
  | cons x xs ih =>
    intro b
    cases b with
    | nil => right; rfl
    | cons y ys =>
      by_cases h : x = y
      · subst h
        rcases ih ys with h1 | h1
        · left; simp [lexLe, h1]
        · right; simp [lexLe, h1]
      · rcases Nat.lt_or_ge x y with hlt | hge
        · left; simp [lexLe, h, hlt]
        · right
          have hyx : y < x := Nat.lt_of_le_of_ne hge (Ne.symm h)
          simp [lexLe, Ne.symm h, hyx]

theorem lexLe_trans : ∀ a b c : List Nat,
    lexLe a b = true → lexLe b c = true → lexLe a c = true := by
  intro a
  induction a with
  | nil => intro b c _ _; rfl
  | cons x xs ih =>
    intro b c hab hbc
    cases b with
    | nil => simp [lexLe] at hab
    | cons y ys =>
      cases c with
      | nil => simp [lexLe] at hbc
      | cons z zs =>
        by_cases hxy : x = y <;> by_cases hyz : y = z
        · subst hxy; subst hyz
          simp only [lexLe, if_pos rfl] at hab hbc ⊢
          exact ih ys zs hab hbc
        · subst hxy
          simp only [lexLe, if_pos rfl] at hab
          simp [lexLe, hyz] at hbc ⊢
          exact hbc
        · subst hyz
          simp [lexLe, hxy] at hab ⊢
          exact hab
        · simp [lexLe, hxy] at hab
          simp [lexLe, hyz] at hbc
          by_cases hxz : x = z
          · exfalso; omega
          · simp [lexLe, hxz]
            omega

theorem lexLe_antisymm : ∀ a b : List Nat,
    lexLe a b = true → lexLe b a = true → a = b := by
  intro a
  induction a with
  | nil =>
    intro b _ hba
    cases b with
    | nil => rfl
    | cons y ys => simp [lexLe] at hba
  | cons x xs ih =>
    intro b hab hba
    cases b with
    | nil => simp [lexLe] at hab
    | cons y ys =>
      by_cases hxy : x = y
      · subst hxy
        simp only [lexLe, if_pos rfl] at hab hba
        rw [ih ys hab hba]
      · simp [lexLe, hxy] at hab
        simp [lexLe, Ne.symm hxy] at hba
        omega

instance : IsTotal (TS × PyStr) keyRel := by
  constructor
  intro a b
  by_cases h : a.1.fields = b.1.fields
  · rcases lexLe_total (charVals a.2) (charVals b.2) with h1 | h1
    · exact Or.inl (Or.inr ⟨h, h1⟩)
    · exact Or.inr (Or.inr ⟨h.symm, h1⟩)
  · rcases lexLe_total a.1.fields b.1.fields with h1 | h1
    · exact Or.inl (Or.inl ⟨h, h1⟩)
    · exact Or.inr (Or.inl ⟨Ne.symm h, h1⟩)

instance : IsTrans (TS × PyStr) keyRel := by
  constructor
  intro a b c hab hbc
  rcases hab with ⟨hne1, hle1⟩ | ⟨heq1, hl1⟩
  · rcases hbc with ⟨hne2, hle2⟩ | ⟨heq2, hl2⟩
    · refine Or.inl ⟨?_, lexLe_trans _ _ _ hle1 hle2⟩
      intro hac
      exact hne1 (lexLe_antisymm _ _ hle1 (hac ▸ hle2))
    · exact Or.inl ⟨heq2 ▸ hne1, heq2 ▸ hle1⟩
  · rcases hbc with ⟨hne2, hle2⟩ | ⟨heq2, hl2⟩
    · refine Or.inl ⟨?_, ?_⟩
      · rw [heq1]; exact hne2
      · rw [heq1]; exact hle2
    · refine Or.inr ⟨heq1.trans heq2, lexLe_trans _ _ _ hl1 hl2⟩

/-- C6: the processed snapshot sequence contains exactly the candidate
(.json-named) files bearing a parsable `YYYY-MM-DD-HH-MM-SS` filename
timestamp — a file without one is never given a position — and it is sorted
ascending by parsed timestamp with identical timestamps ordered by the
code-point order of the file name (`keyRel`). -/
theorem c6_sequencer (files : List PyStr) :
    (∀ (ts : TS) (f : PyStr), (ts, f) ∈ collectSnapshots files ↔
      f ∈ files ∧ isJsonName f = true ∧ getTimestamp f = some ts) ∧
    List.Sorted keyRel (collectSnapshots files) := by
  constructor
  · intro ts f
    unfold collectSnapshots
    rw [List.mem_insertionSort, List.mem_filterMap]
    constructor
    · rintro ⟨x, hx, hfx⟩
      by_cases hj : isJsonName x
      · rw [if_pos hj] at hfx
        obtain ⟨t0, hg, heq⟩ := Option.map_eq_some'.1 hfx
        obtain ⟨rfl, rfl⟩ := Prod.mk.injEq .. ▸ heq
        exact ⟨hx, hj, hg⟩
      · rw [if_neg hj] at hfx
        cases hfx
    · rintro ⟨hf, hj, hg⟩
      refine ⟨f, hf, ?_⟩
      rw [if_pos hj, hg]
      rfl
  · exact List.sorted_insertionSort keyRel _

/-- C6 witness: a concrete file with a parsable timestamp is in the
sequence. -/
theorem c6_witness :
    ((⟨2024, 1, 2, 3, 4, 5⟩ : TS), "b-2024-01-02-03-04-05.json".toList) ∈
      collectSnapshots
        ["b-2024-01-02-03-04-05.json".toList, "nots.json".toList,
         "a-2024-01-02-03-04-05.json".toList] :=
  ((c6_sequencer
    ["b-2024-01-02-03-04-05.json".toList, "nots.json".toList,
     "a-2024-01-02-03-04-05.json".toList]).1
    ⟨2024, 1, 2, 3, 4, 5⟩ "b-2024-01-02-03-04-05.json".toList).mpr (by decide)

/-- C7 counterexample: an existing directory whose files yield zero usable
snapshots (no parsable filename timestamp).  The claim demands exit code 0;
`process_teams_directory` hits `sys.exit(1)` (lines 322-324). -/
theorem c7_counterexample :
    runTeams ⟨true, ["snapshot.json".toList], true, fun _ => none, true⟩ = 1 := by
  decide

/-- C7 (amended): the run returns 0 exactly when the input is a directory,
at least one usable snapshot was found, the output directory was created,
and either no transcript content was extracted (the empty-output path, which
returns 0 even if its write fails) or the final write succeeded; every other
path — including zero usable snapshots — exits with code 1. -/
theorem c7_exit_codes (env : TeamsEnv) :
    (runTeams env = 0 ∨ runTeams env = 1) ∧
    (runTeams env = 0 ↔ env.isDir = true ∧ collectSnapshots env.files ≠ [] ∧
      env.mkdirOk = true ∧ (finalParts env = [] ∨ env.writeOk = true)) := by
  unfold runTeams
  split_ifs <;> simp_all

/-- C7 witness: a directory with one usable snapshot and no extractable
content returns 0. -/
theorem c7_witness :
    runTeams ⟨true, ["a-2024-01-02-03-04-05.json".toList], true, fun _ => none, true⟩ = 0 :=
  (c7_exit_codes ⟨true, ["a-2024-01-02-03-04-05.json".toList], true,
    fun _ => none, true⟩).2.mpr ⟨rfl, by decide, rfl, Or.inl (by decide)⟩

/-- C8 counterexample: on the path that writes the empty output file (no
transcript content extracted) a write failure is caught and the run still
returns 0 (lines 402-411), contradicting the claim that every output write
failure is surfaced with a non-zero exit status. -/
theorem c8_counterexample :
    runTeams ⟨true, ["a-2024-01-02-03-04-05.json".toList], true, fun _ => none, false⟩ = 0 := by
  decide

/-- C8 (amended): a failure to write the formatted, non-empty transcript is
fatal with exit status 1; on the empty-transcript path the run returns 0
whether or not the empty-file write succeeds. -/
theorem c8_write_failure (env : TeamsEnv) (h1 : env.isDir = true)
    (h2 : collectSnapshots env.files ≠ []) (h3 : env.mkdirOk = true) :
    (finalParts env ≠ [] → env.writeOk = false → runTeams env = 1) ∧
    (finalParts env = [] → runTeams env = 0) := by
  unfold runTeams
  split_ifs <;> simp_all

/-- C8 witness: a failing write of a non-empty transcript exits 1. -/
theorem c8_witness :
    runTeams ⟨true, ["a-2024-01-02-03-04-05.json".toList], true,
      fun _ => some (JTree.dict (some "AXGroup".toList) (some "Live Captions".toList) none
        [JTree.dict (some "AXGroup".toList) none none
          [JTree.dict (some "AXGroup".toList) none none
            [JTree.dict (some "AXStaticText".toList) none (some "Alice".toList) []],
           JTree.dict (some "AXStaticText".toList) none (some "Hello".toList) []]]),
      false⟩ = 1 :=
  (c8_write_failure ⟨true, ["a-2024-01-02-03-04-05.json".toList], true,
      fun _ => some (JTree.dict (some "AXGroup".toList) (some "Live Captions".toList) none
        [JTree.dict (some "AXGroup".toList) none none
          [JTree.dict (some "AXGroup".toList) none none
            [JTree.dict (some "AXStaticText".toList) none (some "Alice".toList) []],
           JTree.dict (some "AXStaticText".toList) none (some "Hello".toList) []]]),
      false⟩ rfl (by decide) rfl).1 (by decide) rfl

/-- C9 counterexample: with a current speaker set, a row whose first text
fragment is the clock time "10:30" (HH:MM) is NOT treated as a new
timestamp: `parse_zoom_json` requires exactly two ':' characters
(line 54), so the whole row is buffered as continuation text and no
utterance ever carries the timestamp "10:30". -/
theorem c9_counterexample :
    parseZoom
      [⟨[⟨[⟨some "AXImage".toList, none⟩,
           ⟨some "AXTextArea".toList, some "A".toList⟩]⟩]⟩,
       ⟨[⟨[⟨some "AXTextArea".toList, some "00:00:00".toList⟩,
           ⟨some "AXTextArea".toList, some "hi".toList⟩]⟩]⟩,
       ⟨[⟨[⟨some "AXTextArea".toList, some "10:30".toList⟩,
           ⟨some "AXTextArea".toList, some "there".toList⟩]⟩]⟩] =
      [("A".toList, "00:00:00".toList, "hi 10:30 there".toList)] ∧
    ∀ p ∈ parseZoom
      [⟨[⟨[⟨some "AXImage".toList, none⟩,
           ⟨some "AXTextArea".toList, some "A".toList⟩]⟩]⟩,
       ⟨[⟨[⟨some "AXTextArea".toList, some "00:00:00".toList⟩,
           ⟨some "AXTextArea".toList, some "hi".toList⟩]⟩]⟩,
       ⟨[⟨[⟨some "AXTextArea".toList, some "10:30".toList⟩,
           ⟨some "AXTextArea".toList, some "there".toList⟩]⟩]⟩],
      p.2.1 ≠ "10:30".toList := by
  constructor
  · decide
  · decide

/-- C9 (amended): for a row without an image marker processed while a
current speaker is set: when the row has at least two text fragments and the
first contains exactly two ':' characters (the HH:MM:SS shape — HH:MM is not
recognized), the previous buffer is flushed (only if both a buffer and a
timestamp were pending), the stripped first fragment becomes the new
timestamp and the stripped second fragment starts the new buffered line
(fragments beyond the second are discarded); otherwise all fragments are
appended, stripped, to the current buffer as continuation text. -/
theorem c9_zoom_timestamp_rows (st : ZState) (c0 : ZCell) (rest : List ZCell)
    (himg : zHasImage c0.contents = false) (hc : c0.contents ≠ [])
    (hspk : truthyS st.spk = true) :
    zStep st ⟨c0 :: rest⟩ =
      (match zVals c0.contents with
       | v0 :: v1 :: _ =>
         if v0.count ':' = 2 then
           let st1 := if !st.buf.isEmpty && truthyS st.ts then
             { st with out := zFlush st, buf := [] } else st
           { st1 with ts := some (pyStrip v0), buf := st1.buf ++ [pyStrip v1] }
         else { st with buf := st.buf ++ (zVals c0.contents).map pyStrip }
       | [v0] => { st with buf := st.buf ++ [pyStrip v0] }
       | [] => st) := by
  cases hcont : c0.contents with
  | nil => exact absurd hcont hc
  | cons it0 its =>
    simp only [zStep, hcont]
    rw [hcont] at himg
    rw [himg]
    simp only [Bool.false_eq_true, if_false]
    cases hv : zVals (it0 :: its) with
    | nil => simp [hv]
    | cons v0 vtl =>
      cases vtl with
      | nil => simp [hv, hspk]
      | cons v1 vtl2 => simp [hv, hspk]

/-- C9 witness: a continuation row ("10:30" has one colon) is appended to
the buffer in place. -/
theorem c9_witness :
    zStep ⟨some "A".toList, some "00:00:00".toList, ["hi".toList], []⟩
      ⟨[⟨[⟨some "AXTextArea".toList, some "10:30".toList⟩,
          ⟨some "AXTextArea".toList, some "there".toList⟩]⟩]⟩ =
    ⟨some "A".toList, some "00:00:00".toList,
     ["hi".toList, "10:30".toList, "there".toList], []⟩ := by
  have h := c9_zoom_timestamp_rows
    ⟨some "A".toList, some "00:00:00".toList, ["hi".toList], []⟩
    ⟨[⟨some "AXTextArea".toList, some "10:30".toList⟩,
      ⟨some "AXTextArea".toList, some "there".toList⟩]⟩ []
    (by decide) (by decide) (by decide)
  rw [h]
  decide

/-- A row without an image marker leaves the initial state (no current
speaker) unchanged. -/
theorem zStep_init (r : ZRow) (h : rowHasImage r = false) : zStep zInit r = zInit := by
  obtain ⟨cells⟩ := r
  cases cells with
  | nil => rfl
  | cons c0 cr =>
    simp only [rowHasImage] at h
    cases hcont : c0.contents with
    | nil => simp [zStep, hcont]
    | cons it0 its =>
      rw [hcont] at h
      simp [zStep, hcont, h, truthyS, zInit]

/-- C10: text-only rows before the first image-marker row contribute
nothing: parsing is unchanged when they are dropped, and if no row at all
carries an image marker the extractor emits nothing. -/
theorem c10_pre_image_rows_ignored (rows : List ZRow) :
    parseZoom rows = parseZoom (rows.dropWhile fun r => !rowHasImage r) ∧
    ((∀ r ∈ rows, rowHasImage r = false) → parseZoom rows = []) := by
  have key : ∀ l : List ZRow,
      l.foldl zStep zInit = (l.dropWhile fun r => !rowHasImage r).foldl zStep zInit := by
    intro l
    induction l with
    | nil => rfl
    | cons r rest ih =>
      by_cases h : rowHasImage r = false
      · rw [List.dropWhile_cons, if_pos (by simp [h]), List.foldl_cons, zStep_init r h]
        exact ih
      · rw [List.dropWhile_cons, if_neg (by simp_all)]
  constructor
  · unfold parseZoom
    rw [key]
  · intro hall
    have hdrop : (rows.dropWhile fun r => !rowHasImage r) = [] := by
      rw [List.dropWhile_eq_nil_iff]
      intro x hx
      simp [hall x hx]
    unfold parseZoom
    rw [key, hdrop]
    rfl

/-- C10 witness: a transcript consisting only of text rows (no image-marker
row anywhere) yields no utterances. -/
theorem c10_witness :
    parseZoom
      [⟨[⟨[⟨some "AXTextArea".toList, some "00:00:00".toList⟩,
           ⟨some "AXTextArea".toList, some "orphan".toList⟩]⟩]⟩] = [] :=
  (c10_pre_image_rows_ignored
    [⟨[⟨[⟨some "AXTextArea".toList, some "00:00:00".toList⟩,
         ⟨some "AXTextArea".toList, some "orphan".toList⟩]⟩]⟩]).2 (by decide)
